import Mathlib

/-!
Shallow embedding of the Cabana neighbor-list construction
(`core/src/Cabana_Experimental_NeighborList.hpp`) and of the SoA layout
engine exercised by `core/unit_test/tstSoA.cpp`, with proofs of the
specified properties.

Machine integers are modelled as `Nat`/`Int` with explicit wrap-around:
`size_t` arithmetic wraps modulo `2^64`, and the C cast `(int)x` takes the
low 32 bits two's-complement.  Coordinates and the cutoff radius are
modelled with exact arithmetic in an arbitrary linear ordered commutative
ring `R` (instantiable with `ℚ` or `ℤ`), the idealization of the slice's
floating-point `value_type`.
-/

namespace Cabana

/-- Width of `std::size_t` values: arithmetic on them wraps modulo this. -/
def size64 : Nat := 2 ^ 64

/-- Unsigned 64-bit subtraction `a - b` on `size_t` values (wraps modulo `2^64`). -/
def usub64 (a b : Nat) : Nat := (size64 + a % size64 - b % size64) % size64

/-- Two's-complement reading of the low 32 bits of an unsigned value:
models the C cast `(int)x` applied to a `std::size_t`. -/
def toInt32 (n : Nat) : Int :=
  let m : Nat := n % 2 ^ 32
  if m < 2 ^ 31 then (m : Int) else (m : Int) - 2 ^ 32

/-- Conversion of a C `int` value back to `std::size_t` (wraps modulo `2^64`). -/
def intToSize (z : Int) : Nat := (z % (size64 : Int)).toNat

/-- Point with three exact coordinates: one entry of the 3-component
coordinate slice consumed by the neighbor-list engine. -/
structure Point3 (R : Type) where
  x : R
  y : R
  z : R
deriving DecidableEq

variable {R : Type} [LinearOrderedCommRing R]

/-- Coordinate origin, used as the (arbitrary) value delivered by an
out-of-range slice access. -/
def origin : Point3 R := ⟨0, 0, 0⟩

/-- Squared Euclidean distance between two points. -/
def dist2 (p q : Point3 R) : R :=
  (p.x - q.x) * (p.x - q.x) + (p.y - q.y) * (p.y - q.y) +
    (p.z - q.z) * (p.z - q.z)

/-- Modelled from the spec: the external hierarchical spatial index's
sphere-intersection test (`query(index, region) → matched point ids`, "all
points within radius r of point p").  A point matches the sphere
`(center, radius)` iff its distance from the center is at most the radius;
per the spec's §4.3 note, two coincident particles are mutual neighbors at
any admissible radius, so the boundary is inclusive.  A sphere with
negative radius matches nothing. -/
def sphereIntersects (center : Point3 R) (radius : R) (p : Point3 R) : Bool :=
  decide (0 ≤ radius ∧ dist2 p center ≤ radius * radius)

/-- Modelled from the spec: the external spatial index built over the full
coordinate slice reports, for one sphere query, the ids of all stored
points intersecting the sphere (`build(points) → index;
query(index, region) → matched point ids`), in id order. -/
def bvhQuery (points : List (Point3 R)) (center : Point3 R) (radius : R) :
    List Nat :=
  (List.range points.length).filter fun i =>
    sphereIntersects center radius (points.getD i origin)

/-- Embedding of `Cabana::Experimental::Impl::SubsliceAndRadius`: the
coordinate slice together with the query range `[first, last)` and the
cutoff radius. -/
structure SubsliceAndRadius (R : Type) where
  slice : List (Point3 R)
  first : Nat
  last : Nat
  radius : R

/-- Embedding of `ArborX::Traits::Access<SliceLike, PredicatesTag>::size`:
`x.last - x.first` computed on `size_t`, hence wrapping modulo `2^64`. -/
def predicatesSize (x : SubsliceAndRadius R) : Nat := usub64 x.last x.first

/-- One spatial predicate: a sphere (center and radius) with the attached
data produced by `ArborX::attach`. -/
structure Predicate (R : Type) where
  center : Point3 R
  radius : R
  data : Int

/-- Embedding of `ArborX::Traits::Access<SliceLike, PredicatesTag>::get`:
query `i` is the sphere centered at the point of particle `x.first + i`
with radius `x.radius`, carrying `(int)i` — the local query index, not the
global particle id — as attached data. -/
def predicatesGet (x : SubsliceAndRadius R) (i : Nat) : Predicate R :=
  { center := x.slice.getD (x.first + i) origin
    radius := x.radius
    data := toInt32 i }

/-- Embedding of
`NeighborDiscriminatorCallback<FullNeighborTag>::operator()`: candidate
`i` is output iff `getData(predicate) != i`. -/
def fullAccepts (d i : Int) : Bool := decide (d ≠ i)

/-- Embedding of
`NeighborDiscriminatorCallback<HalfNeighborTag>::operator()`: candidate
`i` is output iff `getData(predicate) > i`. -/
def halfAccepts (d i : Int) : Bool := decide (i < d)

/-- The two neighbor-list variants (`FullNeighborTag` / `HalfNeighborTag`). -/
inductive Tag where
  | full
  | half
deriving DecidableEq

/-- Discriminator selected by tag, applied to the predicate's attached
data and the candidate index. -/
def accepts : Tag → Int → Int → Bool
  | Tag.full, d, i => fullAccepts d i
  | Tag.half, d, i => halfAccepts d i

/-- The run of accepted candidates for local query `j`: the spatial index
reports every stored point intersecting the query sphere, and the
discriminator filters them.  Candidate ids are handed to the callback as C
`int`s; ids always fit since `col_ind` stores `int`. -/
def queryRow (tag : Tag) (x : SubsliceAndRadius R) (j : Nat) : List Nat :=
  let pred := predicatesGet x j
  (bvhQuery x.slice pred.center pred.radius).filter fun c =>
    accepts tag pred.data (c : Int)

/-- All rows of one build: one run of accepted candidates per local query
index in `[0, last - first)` (the subtraction wrapping on `size_t`). -/
def neighborRows (tag : Tag) (slice : List (Point3 R)) (first last : Nat)
    (radius : R) : List (List Nat) :=
  (List.range (predicatesSize ⟨slice, first, last, radius⟩)).map fun j =>
    queryRow tag ⟨slice, first, last, radius⟩ j

/-- Embedding of `Cabana::Experimental::CrsGraph`: flat column indices,
row offsets, the index shift and the total particle count. -/
structure CrsGraph where
  col_ind : List Int
  row_ptr : List Int
  shift : Nat
  total : Nat
deriving DecidableEq

/-- Embedding of `Cabana::Experimental::makeNeighborList`: build the
spatial index over the full coordinate slice, run one query per particle
of `[first, last)` through the tag's discriminator, and package the
results as a CRS graph with `shift = first` and
`total = bvh.size() = slice.size()`.  The two-pass count/fill construction
of the collaborator is modelled by its functional result: `row_ptr` is the
prefix sum of the per-query accepted counts and `col_ind` their
concatenation. -/
def makeNeighborList (tag : Tag) (slice : List (Point3 R)) (first last : Nat)
    (radius : R) : CrsGraph :=
  let rows := neighborRows tag slice first last radius
  { col_ind := rows.flatten.map (fun c : Nat => (c : Int))
    row_ptr := (rows.scanl (fun a r => a + r.length) 0).map (fun c : Nat => (c : Int))
    shift := first
    total := slice.length }

/-- Assertion executed by `NeighborList::numNeighbor`:
`(int)p >= 0 && p < crs_graph.total`. -/
def numNeighborAssert (g : CrsGraph) (p : Nat) : Prop :=
  0 ≤ toInt32 p ∧ p < g.total

/-- Embedding of `NeighborList<CrsGraph>::numNeighbor`: shift `p`
(wrapping on `size_t`), return 0 when the shifted index casts to a
negative `int` or reaches `row_ptr.size() - 1` (itself a wrapping
subtraction), and otherwise the difference of adjacent row offsets,
converted back to `size_t`. -/
def numNeighbor (g : CrsGraph) (p : Nat) : Nat :=
  let q := usub64 p g.shift
  if toInt32 q < 0 ∨ usub64 g.row_ptr.length 1 ≤ q then 0
  else intToSize (g.row_ptr.getD (q + 1) 0 - g.row_ptr.getD q 0)

/-- Assertion executed by `NeighborList::getNeighbor`:
`(int)p >= 0 && p < crs_graph.total` and `n < numNeighbor(crs_graph, p)`. -/
def getNeighborAssert (g : CrsGraph) (p n : Nat) : Prop :=
  numNeighborAssert g p ∧ n < numNeighbor g p

/-- Embedding of `NeighborList<CrsGraph>::getNeighbor`: shift `p` and read
`col_ind(row_ptr(p) + n)`, the `int` offset converted to `size_t` for the
index computation and the stored `int` id converted to `size_t` on
return. -/
def getNeighbor (g : CrsGraph) (p n : Nat) : Nat :=
  let q := usub64 p g.shift
  intToSize (g.col_ind.getD ((intToSize (g.row_ptr.getD q 0) + n) % size64) 0)

/-- Well-formedness of a CRS graph, per the spec's §3 invariants: at least
one row offset; `row_ptr[0] = 0`; offsets non-decreasing; the final offset
equals `col_ind`'s length; the queried rows fit inside `[0, total)`; `total`
and the column count fit in a C `int`; every stored column index is a valid
global particle id in `[0, total)`. -/
abbrev WellFormed (g : CrsGraph) : Prop :=
  1 ≤ g.row_ptr.length ∧
  g.row_ptr.getD 0 0 = 0 ∧
  (∀ k < g.row_ptr.length - 1,
    g.row_ptr.getD k 0 ≤ g.row_ptr.getD (k + 1) 0) ∧
  g.row_ptr.getD (g.row_ptr.length - 1) 0 = (g.col_ind.length : Int) ∧
  g.shift + (g.row_ptr.length - 1) ≤ g.total ∧
  g.total ≤ 2 ^ 31 ∧
  g.col_ind.length ≤ 2 ^ 31 ∧
  ∀ e ∈ g.col_ind, 0 ≤ e ∧ e < (g.total : Int)

/-! ## SoA layout engine

The SoA layout engine itself (`impl/Cabana_SoA.hpp`) is not among the
provided sources — only its unit test `tstSoA.cpp` is — so the layout and
accessor semantics below are modelled from the spec (§3 "SoA Block",
§4.1), faithful to the shapes exercised by the test. -/

/-- Modelled from the spec: one per-particle field descriptor — the
scalar's byte size (`sizeof`, which equals `alignof` for the fundamental
scalar types the test uses) and the field's own shape as a list of
extents, empty for a pure scalar. -/
structure FieldDesc where
  scalarSize : Nat
  shape : List Nat
deriving DecidableEq

/-- The two inner-array orderings of `Cabana::InnerArrayLayout`
(`Kokkos::LayoutRight` / `Kokkos::LayoutLeft`). -/
inductive InnerLayout where
  | right
  | left
deriving DecidableEq

/-- Fallback descriptor delivered by an out-of-range member lookup: a
zero-sized scalar. -/
instance : Inhabited FieldDesc := ⟨⟨0, []⟩⟩

/-- Modelled from the spec: extents, in index order, of the member array
holding one field at inner length `L` — the test indexes
`d6[inner][shape...]` under `LayoutRight` and `d6[shape...][inner]` under
`LayoutLeft` (§4.4: `[innerIndex][memberOwnShapeIndices...]` versus
`[memberOwnShapeIndices...][innerIndex]`). -/
def memberDims (f : FieldDesc) (L : Nat) : InnerLayout → List Nat
  | InnerLayout.right => L :: f.shape
  | InnerLayout.left => f.shape ++ [L]

/-- Product of a list of extents. -/
def prodDims (ds : List Nat) : Nat := ds.foldr (· * ·) 1

/-- Row-major flattening of a multi-index against a dimension list (C
array index arithmetic): the index at each position contributes itself
times the product of the extents to its right. -/
def flatten : List Nat → List Nat → Nat
  | _, [] => 0
  | [], _ :: _ => 0
  | _ :: ds, i :: is => i * prodDims ds + flatten ds is

/-- Byte size of the member array holding field `f`. -/
def memberSize (f : FieldDesc) (L : Nat) (ord : InnerLayout) : Nat :=
  f.scalarSize * prodDims (memberDims f L ord)

/-- Byte offset of member `m` in the packed SoA block: the members are
laid out consecutively in field-list order (spec §3: no implicit
padding). -/
def memberOffset (L : Nat) (ord : InnerLayout) : List FieldDesc → Nat → Nat
  | [], _ => 0
  | _ :: _, 0 => 0
  | f :: fs, Nat.succ m => memberSize f L ord + memberOffset L ord fs m

/-- Byte address of the scalar cell reached by `getStructMember<m>(soa)`
followed by the index tuple `idxs` (spec §4.4: member offset plus the
stride-table flattening of the indices, times the scalar size). -/
def cellAddr (fields : List FieldDesc) (L : Nat) (ord : InnerLayout)
    (m : Nat) (idxs : List Nat) : Nat :=
  memberOffset L ord fields m +
    (fields.getD m default).scalarSize *
      flatten (memberDims (fields.getD m default) L ord) idxs

/-- Validity of an accessor index tuple: member index in range, one index
per dimension of the member array, each index within its extent. -/
abbrev ValidIdx (fields : List FieldDesc) (L : Nat) (ord : InnerLayout)
    (m : Nat) (idxs : List Nat) : Prop :=
  m < fields.length ∧
  idxs.length = (memberDims (fields.getD m default) L ord).length ∧
  ∀ pr ∈ idxs.zip (memberDims (fields.getD m default) L ord), pr.1 < pr.2

/-- Positivity of every field's scalar size (spec §4.1: scalar types are
nonempty fundamental types). -/
abbrev PosFields (fields : List FieldDesc) : Prop := ∀ f ∈ fields, 0 < f.scalarSize

/-- SoA block contents: the value stored at each byte address. -/
def Block : Type := Nat → Int

/-- Write through `member<m>` at index tuple `idxs` (the store performed
by the unit test through `getStructMember`). -/
def setCell (fields : List FieldDesc) (L : Nat) (ord : InnerLayout)
    (m : Nat) (idxs : List Nat) (v : Int) (b : Block) : Block :=
  fun a => if a = cellAddr fields L ord m idxs then v else b a

/-- Read through `member<m>` at index tuple `idxs`. -/
def getCell (fields : List FieldDesc) (L : Nat) (ord : InnerLayout)
    (m : Nat) (idxs : List Nat) (b : Block) : Int :=
  b (cellAddr fields L ord m idxs)

/-- Round `o` up to a multiple of the alignment `a` (C struct layout). -/
def alignUp (o a : Nat) : Nat := if a = 0 then o else a * ((o + a - 1) / a)

/-- Size of a C struct with the given members, each a (byte size,
alignment) pair: members are placed in order at the next suitably aligned
offset and the total is rounded up to the maximum member alignment. -/
def structSize (ms : List (Nat × Nat)) : Nat :=
  let fin := ms.foldl (fun s mb => (alignUp s.1 mb.2 + mb.1, max s.2 mb.2)) (0, 1)
  alignUp fin.1 fin.2

/-- Members of the SoA block type for a field list at inner length `L`
under ordering `ord`: one array per field, its byte size determined by the
ordering's dimension list and its alignment by the scalar. -/
def soaMembers (fields : List FieldDesc) (L : Nat) (ord : InnerLayout) :
    List (Nat × Nat) :=
  fields.map fun f => (memberSize f L ord, f.scalarSize)

/-- Members of the hand-written reference struct: for each field, the
plain C array `scalar name[L][shape...]` of size
`sizeof(scalar) * (L * product(shape))`, aligned like the scalar. -/
def refMembers (fields : List FieldDesc) (L : Nat) : List (Nat × Nat) :=
  fields.map fun f => (f.scalarSize * (L * prodDims f.shape), f.scalarSize)

/-- Packed byte count of a field list: the sum over fields of
`L × product(shape) × sizeof(scalar)`. -/
def packedSize (fields : List FieldDesc) (L : Nat) : Nat :=
  (fields.map fun f => L * prodDims f.shape * f.scalarSize).sum

/-- The field list declared in both test cases of `tstSoA.cpp`: `double`,
`int`, `float`, `double[2][3]`, `unsigned[5]`, `float[3][2][2]`,
`double[4][2][3][2]`. -/
def testFields : List FieldDesc :=
  [⟨8, []⟩, ⟨4, []⟩, ⟨4, []⟩, ⟨8, [2, 3]⟩, ⟨4, [5]⟩, ⟨4, [3, 2, 2]⟩,
    ⟨8, [4, 2, 3, 2]⟩]

/-- Members of the hand-written `FooData` comparison struct of
`tstSoA.cpp`, read off its declaration: byte size and alignment of
`_d0[4]` through `_d6[4][4][2][3][2]`. -/
def fooDataMembers : List (Nat × Nat) :=
  [(32, 8), (16, 4), (16, 4), (192, 8), (80, 4), (192, 4), (1536, 8)]

/-! ## Arithmetic helper lemmas -/

theorem usub64_eq_sub {a b : Nat} (hb : b ≤ a) (ha : a < size64) :
    usub64 a b = a - b := by
  simp only [usub64, size64] at *
  omega

theorem usub64_of_lt {a b : Nat} (h : a < b) (hb : b < size64) :
    usub64 a b = size64 - (b - a) := by
  simp only [usub64, size64] at *
  omega

theorem toInt32_of_lt {n : Nat} (h : n < 2 ^ 31) : toInt32 n = (n : Int) := by
  simp only [toInt32]
  rw [if_pos (by omega)]
  omega

theorem toInt32_nonneg_of_lt {n : Nat} (h : n < 2 ^ 31) : 0 ≤ toInt32 n := by
  rw [toInt32_of_lt h]
  exact Int.ofNat_nonneg n

theorem intToSize_of_nonneg {z : Int} (h0 : 0 ≤ z) (h1 : z < (size64 : Nat)) :
    (intToSize z : Int) = z := by
  simp only [intToSize, size64] at *
  rw [Int.emod_eq_of_lt h0 (by exact_mod_cast h1)]
  exact Int.toNat_of_nonneg h0

/-! ## C9: shift and total of the built graph -/

/-- C9: for every build call, the returned CRS graph's `shift` field equals
the `first` index of the query range and its `total` field equals the size
of the full coordinate slice (the number of particles stored in the
spatial index), for both variant tags and every sub-range. -/
theorem makeNeighborList_shift_total (tag : Tag) (slice : List (Point3 R))
    (first last : Nat) (radius : R) :
    (makeNeighborList tag slice first last radius).shift = first ∧
    (makeNeighborList tag slice first last radius).total = slice.length :=
  ⟨rfl, rfl⟩

/-! ## Geometry and query helper lemmas -/

theorem dist2_comm (p q : Point3 R) : dist2 p q = dist2 q p := by
  simp only [dist2]
  ring

theorem sphereIntersects_comm (a b : Point3 R) (r : R) :
    sphereIntersects a r b = sphereIntersects b r a := by
  simp only [sphereIntersects, dist2_comm]

theorem mem_bvhQuery {points : List (Point3 R)} {center : Point3 R} {r : R}
    {c : Nat} :
    c ∈ bvhQuery points center r ↔
      c < points.length ∧
        sphereIntersects center r (points.getD c origin) = true := by
  simp [bvhQuery, List.mem_filter, List.mem_range]

theorem nodup_bvhQuery (points : List (Point3 R)) (center : Point3 R) (r : R) :
    (bvhQuery points center r).Nodup :=
  (List.nodup_range _).filter _

theorem mem_queryRow {tag : Tag} {x : SubsliceAndRadius R} {j c : Nat} :
    c ∈ queryRow tag x j ↔
      c < x.slice.length ∧
        sphereIntersects (x.slice.getD (x.first + j) origin) x.radius
          (x.slice.getD c origin) = true ∧
        accepts tag (toInt32 j) (c : Int) = true := by
  simp [queryRow, List.mem_filter, mem_bvhQuery, predicatesGet, and_assoc]

theorem nodup_queryRow (tag : Tag) (x : SubsliceAndRadius R) (j : Nat) :
    (queryRow tag x j).Nodup :=
  (nodup_bvhQuery _ _ _).filter _

theorem neighborRows_getD {t : Tag} {slice : List (Point3 R)}
    {first last : Nat} {r : R} {j : Nat}
    (hj : j < predicatesSize (⟨slice, first, last, r⟩ : SubsliceAndRadius R)) :
    (neighborRows t slice first last r).getD j []
      = queryRow t (⟨slice, first, last, r⟩ : SubsliceAndRadius R) j := by
  rw [neighborRows, List.getD_eq_getElem _ _ (by simpa using hj)]
  simp

theorem predicatesSize_full {S : Type} {s : List (Point3 S)} {r : S}
    (h : s.length < size64) :
    predicatesSize (⟨s, 0, s.length, r⟩ : SubsliceAndRadius S)
      = s.length := by
  simpa [predicatesSize] using usub64_eq_sub (Nat.zero_le _) h


/-! ## C1: direction of the half-neighbor discriminator -/

/-- C1 counterexample: with `first = 0` the attached datum of query `1` is
the owner's global id `p = 1`; the spatial index reports candidate `c = 0`
(both particles are within radius), and the half discriminator accepts it
even though `c > p` is false — the code keeps the direction from the
higher id to the lower one, not lower-to-higher as claimed. -/
theorem halfAccepts_direction_cex :
    (predicatesGet (⟨[⟨0, 0, 0⟩, ⟨0, 0, 0⟩], 0, 2, 1⟩ : SubsliceAndRadius ℤ)
        1).data = 1
  ∧ 0 ∈ bvhQuery ([⟨0, 0, 0⟩, ⟨0, 0, 0⟩] : List (Point3 ℤ))
      ((predicatesGet (⟨[⟨0, 0, 0⟩, ⟨0, 0, 0⟩], 0, 2, 1⟩ :
          SubsliceAndRadius ℤ) 1).center) 1
  ∧ halfAccepts 1 0 = true
  ∧ ¬ ((0 : Int) > 1) := by
  refine ⟨by decide, by decide, by decide, by decide⟩

/-- C1 amended: the half discriminator accepts candidate `c` for the query
with attached local index `d` iff `d > c`; with `first = 0` the attached
index is the owner's global id `p`, so `c` is accepted iff `c < p`, and
each unordered pair of distinct mutually-in-range particles appears in the
graph exactly once — in the direction from the higher global id to the
lower one (the reverse of the claimed direction). -/
theorem half_pair_appears_once (slice : List (Point3 R)) (r : R) (p c : Nat)
    (hN : slice.length ≤ 2 ^ 31) (hp : p < slice.length)
    (hc : c < slice.length) (hpc : p ≠ c)
    (hin : sphereIntersects (slice.getD p origin) r (slice.getD c origin)
      = true) :
    ((neighborRows Tag.half slice 0 slice.length r).getD p []).count c
      = (if c < p then 1 else 0)
  ∧ ((neighborRows Tag.half slice 0 slice.length r).getD p []).count c
      + ((neighborRows Tag.half slice 0 slice.length r).getD c []).count p
      = 1 := by
  have hN64 : slice.length < size64 := by
    simp only [size64]; omega
  have hsz := predicatesSize_full (s := slice) (r := r) hN64
  have hrowp := neighborRows_getD (t := Tag.half) (j := p) (by rw [hsz]; exact hp)
  have hrowc := neighborRows_getD (t := Tag.half) (j := c) (by rw [hsz]; exact hc)
  have hmem : ∀ a b : Nat, a < slice.length → b < slice.length →
      sphereIntersects (slice.getD a origin) r (slice.getD b origin) = true →
      (b ∈ queryRow Tag.half (⟨slice, 0, slice.length, r⟩ :
          SubsliceAndRadius R) a ↔ b < a) := by
    intro a b ha hb hab
    rw [mem_queryRow]
    simp only [Nat.zero_add, accepts, halfAccepts]
    rw [toInt32_of_lt (by omega)]
    constructor
    · rintro ⟨-, -, h⟩
      have h2 := of_decide_eq_true h
      omega
    · intro h
      exact ⟨hb, hab, decide_eq_true (by omega)⟩
  have hcount : ∀ a b : Nat, a < slice.length → b < slice.length →
      sphereIntersects (slice.getD a origin) r (slice.getD b origin) = true →
      (queryRow Tag.half (⟨slice, 0, slice.length, r⟩ :
          SubsliceAndRadius R) a).count b = (if b < a then 1 else 0) := by
    intro a b ha hb hab
    by_cases h : b < a
    · rw [if_pos h]
      exact List.count_eq_one_of_mem (nodup_queryRow _ _ _)
        ((hmem a b ha hb hab).2 h)
    · rw [if_neg h]
      exact List.count_eq_zero_of_not_mem (fun hm => h ((hmem a b ha hb hab).1 hm))
  have hin' : sphereIntersects (slice.getD c origin) r (slice.getD p origin)
      = true := by
    rw [sphereIntersects_comm]; exact hin
  rw [hrowp, hrowc, hcount p c hp hc hin, hcount c p hc hp hin']
  refine ⟨rfl, ?_⟩
  rcases Nat.lt_or_ge c p with h | h
  · rw [if_pos h, if_neg (by omega)]
  · have hlt : p < c := by omega
    rw [if_neg (by omega), if_pos hlt]

/-- Witness for the amended C1 theorem on the spec's concrete scenario
(scaled by 2 to integer coordinates): particles on a line at 0, 2, 4, 20
with radius 3; the pair {1, 2} appears exactly once, in row 2. -/
theorem half_pair_appears_once_witness :
    ((neighborRows Tag.half
          ([⟨0, 0, 0⟩, ⟨2, 0, 0⟩, ⟨4, 0, 0⟩, ⟨20, 0, 0⟩] : List (Point3 ℤ)) 0
          ([⟨0, 0, 0⟩, ⟨2, 0, 0⟩, ⟨4, 0, 0⟩, ⟨20, 0, 0⟩] :
            List (Point3 ℤ)).length 3).getD 2 []).count 1
      = (if 1 < 2 then 1 else 0)
  ∧ ((neighborRows Tag.half
          ([⟨0, 0, 0⟩, ⟨2, 0, 0⟩, ⟨4, 0, 0⟩, ⟨20, 0, 0⟩] : List (Point3 ℤ)) 0
          ([⟨0, 0, 0⟩, ⟨2, 0, 0⟩, ⟨4, 0, 0⟩, ⟨20, 0, 0⟩] :
            List (Point3 ℤ)).length 3).getD 2 []).count 1
      + ((neighborRows Tag.half
          ([⟨0, 0, 0⟩, ⟨2, 0, 0⟩, ⟨4, 0, 0⟩, ⟨20, 0, 0⟩] : List (Point3 ℤ)) 0
          ([⟨0, 0, 0⟩, ⟨2, 0, 0⟩, ⟨4, 0, 0⟩, ⟨20, 0, 0⟩] :
            List (Point3 ℤ)).length 3).getD 1 []).count 2
      = 1 :=
  half_pair_appears_once
    ([⟨0, 0, 0⟩, ⟨2, 0, 0⟩, ⟨4, 0, 0⟩, ⟨20, 0, 0⟩] : List (Point3 ℤ)) 3 2 1
    (by decide) (by decide) (by decide) (by decide) (by decide)


/-! ## C2: the full discriminator compares local to global indices -/

/-- C2 failing input evaluated: two coincident particles, query range
`[1, 2)`, radius 1, full variant.  The owner is particle `p = 1`, but the
predicate carries local index `0`, so the discriminator rejects candidate
`0` (a genuine neighbor) and accepts candidate `1` — the owner itself.
The resulting graph lists `p` as its own neighbor, contradicting the claim
(and the code's own `discard self-collision` comment), which demands
`col_ind = [0]`. -/
theorem fullAccepts_self_collision_bug :
    (makeNeighborList Tag.full ([⟨0, 0, 0⟩, ⟨0, 0, 0⟩] : List (Point3 ℤ))
        1 2 1).col_ind = [1]
  ∧ (predicatesGet (⟨[⟨0, 0, 0⟩, ⟨0, 0, 0⟩], 1, 2, 1⟩ : SubsliceAndRadius ℤ)
        0).data = 0
  ∧ fullAccepts 0 1 = true
  ∧ fullAccepts 0 0 = false := by
  refine ⟨by decide, by decide, by decide, by decide⟩

/-! ## C8: degenerate radius -/

/-- C8 counterexample: at radius exactly 0 with two distinct particles on
the same point, the full variant still reports the coincident pair — the
sphere test is inclusive at the boundary — so the row offsets `[0, 1, 2]`
are not all equal as the claim demands. -/
theorem radius_zero_coincident_cex :
    (makeNeighborList Tag.full ([⟨0, 0, 0⟩, ⟨0, 0, 0⟩] : List (Point3 ℤ))
        0 2 0).row_ptr = [0, 1, 2]
  ∧ (0 : Int) ≠ 1 := by
  refine ⟨by decide, by decide⟩

theorem dist2_nonneg (p q : Point3 R) : 0 ≤ dist2 p q :=
  add_nonneg (add_nonneg (mul_self_nonneg _) (mul_self_nonneg _))
    (mul_self_nonneg _)

theorem eq_of_sphereIntersects_zero {a b : Point3 R}
    (h : sphereIntersects a 0 b = true) : a = b := by
  have h2 := of_decide_eq_true h
  have hz : dist2 b a = 0 :=
    le_antisymm (by simpa using h2.2) (dist2_nonneg b a)
  simp only [dist2] at hz
  have hx : (b.x - a.x) * (b.x - a.x) = 0 := by
    have n1 := mul_self_nonneg (b.x - a.x)
    have n2 := mul_self_nonneg (b.y - a.y)
    have n3 := mul_self_nonneg (b.z - a.z)
    linarith
  have hy : (b.y - a.y) * (b.y - a.y) = 0 := by
    have n1 := mul_self_nonneg (b.x - a.x)
    have n2 := mul_self_nonneg (b.y - a.y)
    have n3 := mul_self_nonneg (b.z - a.z)
    linarith
  have hzz : (b.z - a.z) * (b.z - a.z) = 0 := by
    have n1 := mul_self_nonneg (b.x - a.x)
    have n2 := mul_self_nonneg (b.y - a.y)
    have n3 := mul_self_nonneg (b.z - a.z)
    linarith
  have ex : a.x = b.x := by
    have := mul_self_eq_zero.1 hx
    linarith [sub_eq_zero.1 this]
  have ey : a.y = b.y := by
    have := mul_self_eq_zero.1 hy
    linarith [sub_eq_zero.1 this]
  have ez : a.z = b.z := by
    have := mul_self_eq_zero.1 hzz
    linarith [sub_eq_zero.1 this]
  cases a
  cases b
  simp_all

theorem queryRow_of_neg_radius (tag : Tag) (x : SubsliceAndRadius R) (j : Nat)
    (h : x.radius < 0) : queryRow tag x j = [] := by
  have hb : bvhQuery x.slice (predicatesGet x j).center
      (predicatesGet x j).radius = [] := by
    apply List.filter_eq_nil_iff.2
    intro a _
    simp only [predicatesGet, sphereIntersects, decide_eq_true_eq]
    rintro ⟨h0, -⟩
    exact absurd h0 (not_le.mpr h)
  simp [queryRow, hb]

theorem scanl_length_replicate (n : Nat) (a : Nat) :
    List.scanl (fun acc (r : List Nat) => acc + r.length) a
        (List.replicate n ([] : List Nat))
      = List.replicate (n + 1) a := by
  induction n generalizing a with
  | zero => simp [List.scanl]
  | succ k ih =>
    rw [List.replicate_succ, List.scanl_cons]
    simp only [List.length_nil, Nat.add_zero]
    rw [ih]
    rfl

theorem row_ptr_of_empty_rows {tag : Tag} {slice : List (Point3 R)}
    {first last : Nat} {radius : R}
    (h : ∀ j, j < predicatesSize (⟨slice, first, last, radius⟩ :
        SubsliceAndRadius R) → queryRow tag
        (⟨slice, first, last, radius⟩ : SubsliceAndRadius R) j = []) :
    (makeNeighborList tag slice first last radius).row_ptr
      = List.replicate
          (predicatesSize (⟨slice, first, last, radius⟩ :
            SubsliceAndRadius R) + 1) 0 := by
  have hrows : neighborRows tag slice first last radius
      = List.replicate
          (predicatesSize (⟨slice, first, last, radius⟩ :
            SubsliceAndRadius R)) [] := by
    rw [neighborRows, List.eq_replicate_iff]
    refine ⟨by simp, ?_⟩
    intro b hb
    rcases List.mem_map.1 hb with ⟨j, hj, rfl⟩
    exact h j (List.mem_range.1 hj)
  simp [makeNeighborList, hrows, scanl_length_replicate, List.map_replicate]

/-- C8 amended: a negative radius yields a graph whose row offsets are all
equal (zero neighbors everywhere), for both variants, every range and every
slice; at radius exactly 0 the same holds for a full-range build provided
no two distinct particles occupy identical coordinates — coincident
distinct particles are still reported at radius 0 (the sphere test is
inclusive), as the counterexample shows. -/
theorem radius_degenerate_row_ptr :
    (∀ (tag : Tag) (slice : List (Point3 R)) (first last : Nat) (radius : R),
        radius < 0 →
        (makeNeighborList tag slice first last radius).row_ptr
          = List.replicate
              (predicatesSize (⟨slice, first, last, radius⟩ :
                SubsliceAndRadius R) + 1) 0)
  ∧ (∀ (tag : Tag) (slice : List (Point3 R)),
        slice.length ≤ 2 ^ 31 →
        (∀ i j, i < slice.length → j < slice.length → i ≠ j →
          slice.getD i origin ≠ slice.getD j origin) →
        (makeNeighborList tag slice 0 slice.length (0 : R)).row_ptr
          = List.replicate (slice.length + 1) 0) := by
  constructor
  · intro tag slice first last radius hr
    exact row_ptr_of_empty_rows fun j _ => queryRow_of_neg_radius tag _ j hr
  · intro tag slice hN hinj
    have hN64 : slice.length < size64 := by
      simp only [size64]; omega
    have hsz := predicatesSize_full (s := slice) (r := (0 : R)) hN64
    have hempty : ∀ j, j < predicatesSize (⟨slice, 0, slice.length, 0⟩ :
        SubsliceAndRadius R) → queryRow tag
        (⟨slice, 0, slice.length, 0⟩ : SubsliceAndRadius R) j = [] := by
      intro j hjsz
      have hj : j < slice.length := by rwa [hsz] at hjsz
      rw [queryRow]
      apply List.filter_eq_nil_iff.2
      intro c hc
      rcases mem_bvhQuery.1 hc with ⟨hcN, hint⟩
      simp only [predicatesGet, Nat.zero_add] at hint ⊢
      have hcj : c = j := by
        by_contra hne
        exact hinj j c hj hcN (fun h => hne h.symm)
          (eq_of_sphereIntersects_zero hint)
      subst hcj
      rw [toInt32_of_lt (by omega)]
      cases tag <;> simp [accepts, fullAccepts, halfAccepts]
    have := row_ptr_of_empty_rows hempty
    rw [this, hsz]

/-- Witness for the amended C8 theorem: the negative-radius clause applied
to two coincident particles with radius -1. -/
theorem radius_degenerate_row_ptr_witness :
    (makeNeighborList Tag.full ([⟨0, 0, 0⟩, ⟨0, 0, 0⟩] : List (Point3 ℤ))
        0 2 (-1)).row_ptr
      = List.replicate
          (predicatesSize (⟨[⟨0, 0, 0⟩, ⟨0, 0, 0⟩], 0, 2, (-1 : ℤ)⟩ :
            SubsliceAndRadius ℤ) + 1) 0 :=
  radius_degenerate_row_ptr.1 Tag.full [⟨0, 0, 0⟩, ⟨0, 0, 0⟩] 0 2 (-1)
    (by decide)

/-! ## C7: no rejection of an inverted query range -/

/-- C7 counterexample: a build with `first = 1 > 0 = last` is not rejected
by any precondition check — `makeNeighborList` has none — and the unsigned
query count `last - first` wraps to `2^64 - 1`, so the build stands ready
to execute that many queries (one row offset per query plus one) instead
of failing with an InvalidRange condition before any query executes. -/
theorem invalidRange_not_rejected_cex :
    predicatesSize (⟨[], 1, 0, 1⟩ : SubsliceAndRadius ℤ) = size64 - 1
  ∧ size64 - 1 ≠ 0
  ∧ (makeNeighborList Tag.full ([] : List (Point3 ℤ)) 1 0 1).row_ptr.length
      = (size64 - 1) + 1 := by
  refine ⟨by decide, by decide, ?_⟩
  simp only [makeNeighborList, neighborRows, List.length_map, List.length_scanl,
    List.length_range]
  decide

/-- C7 amended: no precondition check exists; the number of issued queries
is the wrapped unsigned difference, so a call with `first > last` proceeds
with `2^64 - (first - last)` queries (the graph gets one row offset per
query plus one) rather than being rejected. -/
theorem makeNeighborList_range_wraps (tag : Tag) (slice : List (Point3 R))
    (first last : Nat) (radius : R) (hf : first < size64) (h : last < first) :
    (makeNeighborList tag slice first last radius).row_ptr.length
      = (size64 - (first - last)) + 1 := by
  simp only [makeNeighborList, neighborRows, List.length_map, List.length_scanl,
    List.length_range, predicatesSize]
  rw [usub64_of_lt h hf]

/-- Witness for the amended C7 theorem at the concrete inverted range
`first = 1, last = 0`. -/
theorem makeNeighborList_range_wraps_witness :
    (makeNeighborList Tag.full ([] : List (Point3 ℤ)) 1 0 1).row_ptr.length
      = (size64 - (1 - 0)) + 1 :=
  makeNeighborList_range_wraps Tag.full [] 1 0 1 (by decide) (by decide)

/-! ## C5 and C6: the neighbor-list accessor -/

/-- Row offsets are monotone under the well-formedness invariants. -/
theorem row_ptr_mono {g : CrsGraph} (hwf : WellFormed g) {k m : Nat}
    (hk : k ≤ m) (hm : m < g.row_ptr.length) :
    g.row_ptr.getD k 0 ≤ g.row_ptr.getD m 0 := by
  have hadj := hwf.2.2.1
  induction m with
  | zero =>
    have hk0 : k = 0 := Nat.le_zero.1 hk
    simp [hk0]
  | succ m ih =>
    rcases Nat.eq_or_lt_of_le hk with rfl | hlt
    · exact le_refl _
    · exact le_trans (ih (by omega) (by omega)) (hadj m (by omega))

/-- Every row offset of a well-formed graph lies between 0 and the column
count. -/
theorem row_ptr_bounds {g : CrsGraph} (hwf : WellFormed g) {k : Nat}
    (hk : k < g.row_ptr.length) :
    0 ≤ g.row_ptr.getD k 0 ∧ g.row_ptr.getD k 0 ≤ (g.col_ind.length : Int) := by
  constructor
  · have h0 := hwf.2.1
    have := row_ptr_mono hwf (Nat.zero_le k) hk
    omega
  · have hlast := hwf.2.2.2.1
    have := row_ptr_mono hwf (Nat.le_sub_one_of_lt hk) (by omega)
    omega

/-- Case analysis of `numNeighbor` on a well-formed graph: outside the
queried rows it returns 0, inside it returns the adjacent-offset
difference. -/
theorem numNeighbor_cases (g : CrsGraph) (hwf : WellFormed g) (p : Nat)
    (hp : p < g.total) :
    (¬ (g.shift ≤ p ∧ p < g.shift + (g.row_ptr.length - 1)) →
      numNeighbor g p = 0)
  ∧ (g.shift ≤ p → p < g.shift + (g.row_ptr.length - 1) →
      (numNeighbor g p : Int)
        = g.row_ptr.getD (p - g.shift + 1) 0 - g.row_ptr.getD (p - g.shift) 0) := by
  have hlen1 : 1 ≤ g.row_ptr.length := hwf.1
  have hrange : g.shift + (g.row_ptr.length - 1) ≤ g.total := hwf.2.2.2.2.1
  have htot : g.total ≤ 2 ^ 31 := hwf.2.2.2.2.2.1
  have hcol : g.col_ind.length ≤ 2 ^ 31 := hwf.2.2.2.2.2.2.1
  have hlen64 : g.row_ptr.length < size64 := by simp only [size64]; omega
  have hshift64 : g.shift < size64 := by simp only [size64]; omega
  have hp64 : p < size64 := by simp only [size64]; omega
  have hul : usub64 g.row_ptr.length 1 = g.row_ptr.length - 1 :=
    usub64_eq_sub hlen1 hlen64
  constructor
  · intro hout
    rcases Nat.lt_or_ge p g.shift with hps | hps
    · -- p below the queried range: the shifted index wraps to a huge value
      have hq : usub64 p g.shift = size64 - (g.shift - p) :=
        usub64_of_lt hps hshift64
      simp only [numNeighbor, hq, hul]
      rw [if_pos]
      right
      simp only [size64] at *
      omega
    · -- p at or above the end of the queried range
      have hq : usub64 p g.shift = p - g.shift := usub64_eq_sub hps hp64
      simp only [numNeighbor, hq, hul]
      rw [if_pos]
      right
      omega
  · intro hps hplt
    have hq : usub64 p g.shift = p - g.shift := usub64_eq_sub hps hp64
    have hqlt : p - g.shift < g.row_ptr.length - 1 := by omega
    have hcast : toInt32 (p - g.shift) = ((p - g.shift : Nat) : Int) :=
      toInt32_of_lt (by omega)
    have hb1 := row_ptr_bounds hwf (k := p - g.shift) (by omega)
    have hb2 := row_ptr_bounds hwf (k := p - g.shift + 1) (by omega)
    have hm : g.row_ptr.getD (p - g.shift) 0 ≤ g.row_ptr.getD (p - g.shift + 1) 0 :=
      row_ptr_mono hwf (by omega) (by omega)
    simp only [numNeighbor, hq, hul]
    rw [if_neg (by rw [hcast]; omega)]
    rw [intToSize_of_nonneg (by omega) (by simp only [size64] at *; omega)]


/-- C5: on a well-formed CRS graph, for every global particle id
`p < total`, `numNeighbor` passes its debug assertion (no error is
raised), returns 0 whenever `p` falls outside `[shift, shift + numRows)`,
and inside that range returns
`row_ptr[(p - shift) + 1] - row_ptr[p - shift]`, the accepted-neighbor
count of particle `p`. -/
theorem numNeighbor_spec (g : CrsGraph) (hwf : WellFormed g) (p : Nat)
    (hp : p < g.total) :
    numNeighborAssert g p
  ∧ (p < g.shift ∨ g.shift + (g.row_ptr.length - 1) ≤ p →
      numNeighbor g p = 0)
  ∧ (g.shift ≤ p → p < g.shift + (g.row_ptr.length - 1) →
      (numNeighbor g p : Int)
        = g.row_ptr.getD (p - g.shift + 1) 0
            - g.row_ptr.getD (p - g.shift) 0) := by
  have hc := numNeighbor_cases g hwf p hp
  have htot : g.total ≤ 2 ^ 31 := hwf.2.2.2.2.2.1
  refine ⟨⟨toInt32_nonneg_of_lt (by omega), hp⟩, ?_, hc.2⟩
  intro hout
  exact hc.1 (by omega)

/-- Witness for the C5 theorem: a concrete well-formed two-row graph and
the out-of-range particle id 2. -/
theorem numNeighbor_spec_witness :
    numNeighborAssert ⟨[1, 0], [0, 1, 2], 0, 3⟩ 2
  ∧ numNeighbor ⟨[1, 0], [0, 1, 2], 0, 3⟩ 2 = 0 :=
  ⟨(numNeighbor_spec ⟨[1, 0], [0, 1, 2], 0, 3⟩ (by decide) 2 (by decide)).1,
   (numNeighbor_spec ⟨[1, 0], [0, 1, 2], 0, 3⟩ (by decide) 2 (by decide)).2.1
     (Or.inr (by decide))⟩

/-- C6: on a well-formed CRS graph, `getNeighbor`'s debug assertion holds
exactly when the precondition `n < numNeighbor(p)` does (violating it
fails the OutOfBounds assertion); under the precondition the index
computation `row_ptr[p - shift] + n` stays strictly within `col_ind`, and
the returned value is the `n`-th stored neighbor of `p`, a valid global
particle id below `total`. -/
theorem getNeighbor_spec (g : CrsGraph) (hwf : WellFormed g) (p n : Nat)
    (hp : p < g.total) :
    (getNeighborAssert g p n ↔ n < numNeighbor g p)
  ∧ (n < numNeighbor g p →
      intToSize (g.row_ptr.getD (p - g.shift) 0) + n < g.col_ind.length
      ∧ (getNeighbor g p n : Int)
          = g.col_ind.getD
              (intToSize (g.row_ptr.getD (p - g.shift) 0) + n) 0
      ∧ getNeighbor g p n < g.total) := by
  have hc := numNeighbor_cases g hwf p hp
  have hlen1 : 1 ≤ g.row_ptr.length := hwf.1
  have hrange : g.shift + (g.row_ptr.length - 1) ≤ g.total := hwf.2.2.2.2.1
  have htot : g.total ≤ 2 ^ 31 := hwf.2.2.2.2.2.1
  have hcol : g.col_ind.length ≤ 2 ^ 31 := hwf.2.2.2.2.2.2.1
  have hent := hwf.2.2.2.2.2.2.2
  constructor
  · constructor
    · rintro ⟨-, hn⟩
      exact hn
    · intro hn
      exact ⟨⟨toInt32_nonneg_of_lt (by omega), hp⟩, hn⟩
  · intro hn
    have hpos : 0 < numNeighbor g p := by omega
    have hloc : g.shift ≤ p ∧ p < g.shift + (g.row_ptr.length - 1) := by
      by_contra hout
      rw [hc.1 hout] at hpos
      omega
    have hq : usub64 p g.shift = p - g.shift :=
      usub64_eq_sub hloc.1 (by simp only [size64]; omega)
    have hval := hc.2 hloc.1 hloc.2
    have hb1 := row_ptr_bounds hwf (k := p - g.shift) (by omega)
    have hb2 := row_ptr_bounds hwf (k := p - g.shift + 1) (by omega)
    have ha : (intToSize (g.row_ptr.getD (p - g.shift) 0) : Int)
        = g.row_ptr.getD (p - g.shift) 0 :=
      intToSize_of_nonneg hb1.1 (by simp only [size64] at *; omega)
    have hidx : intToSize (g.row_ptr.getD (p - g.shift) 0) + n
        < g.col_ind.length := by omega
    refine ⟨hidx, ?_, ?_⟩
    · -- the modular reduction of the index is the identity in bounds
      have hmod : (intToSize (g.row_ptr.getD (p - g.shift) 0) + n) % size64
          = intToSize (g.row_ptr.getD (p - g.shift) 0) + n := by
        apply Nat.mod_eq_of_lt
        simp only [size64] at *
        omega
      simp only [getNeighbor, hq, hmod]
      set idx := intToSize (g.row_ptr.getD (p - g.shift) 0) + n with hidxdef
      have hmem : g.col_ind.getD idx 0 ∈ g.col_ind := by
        rw [List.getD_eq_getElem _ _ hidx]
        exact List.getElem_mem hidx
      have he := hent _ hmem
      exact intToSize_of_nonneg he.1 (by simp only [size64] at *; omega)
    · have hmod : (intToSize (g.row_ptr.getD (p - g.shift) 0) + n) % size64
          = intToSize (g.row_ptr.getD (p - g.shift) 0) + n := by
        apply Nat.mod_eq_of_lt
        simp only [size64] at *
        omega
      simp only [getNeighbor, hq, hmod]
      set idx := intToSize (g.row_ptr.getD (p - g.shift) 0) + n with hidxdef
      have hmem : g.col_ind.getD idx 0 ∈ g.col_ind := by
        rw [List.getD_eq_getElem _ _ hidx]
        exact List.getElem_mem hidx
      have he := hent _ hmem
      have hcast := intToSize_of_nonneg he.1 (by simp only [size64] at *; omega)
      omega

/-- Witness for the C6 theorem: the same concrete graph, particle 0,
neighbor slot 0. -/
theorem getNeighbor_spec_witness :
    getNeighborAssert ⟨[1, 0], [0, 1, 2], 0, 3⟩ 0 0
  ∧ intToSize ((⟨[1, 0], [0, 1, 2], 0, 3⟩ : CrsGraph).row_ptr.getD (0 - 0) 0)
      + 0 < (⟨[1, 0], [0, 1, 2], 0, 3⟩ : CrsGraph).col_ind.length
  ∧ (getNeighbor ⟨[1, 0], [0, 1, 2], 0, 3⟩ 0 0 : Int)
      = (⟨[1, 0], [0, 1, 2], 0, 3⟩ : CrsGraph).col_ind.getD
          (intToSize
            ((⟨[1, 0], [0, 1, 2], 0, 3⟩ : CrsGraph).row_ptr.getD (0 - 0) 0)
            + 0) 0
  ∧ getNeighbor ⟨[1, 0], [0, 1, 2], 0, 3⟩ 0 0
      < (⟨[1, 0], [0, 1, 2], 0, 3⟩ : CrsGraph).total := by
  have h := getNeighbor_spec ⟨[1, 0], [0, 1, 2], 0, 3⟩ (by decide) 0 0
    (by decide)
  have h2 := h.2 (by decide)
  exact ⟨h.1.mpr (by decide), h2.1, h2.2.1, h2.2.2⟩

/-! ## C3 and C4: the SoA layout engine -/

/-- Product of an extent list with one extent appended. -/
theorem prodDims_append_single (xs : List Nat) (L : Nat) :
    prodDims (xs ++ [L]) = prodDims xs * L := by
  induction xs with
  | nil => simp [prodDims]
  | cons d ds ih =>
    simp only [prodDims, List.foldr_cons, List.cons_append] at *
    rw [ih]
    ring

/-- The member array's byte size is independent of the ordering: both
orderings permute the same extents. -/
theorem memberSize_eq (f : FieldDesc) (L : Nat) (ord : InnerLayout) :
    memberSize f L ord = f.scalarSize * (L * prodDims f.shape) := by
  cases ord
  · rfl
  · simp only [memberSize, memberDims, prodDims_append_single]
    ring

/-- Member-wise, the SoA block and the hand-written reference struct have
identical sizes and alignments. -/
theorem soaMembers_eq_refMembers (fields : List FieldDesc) (L : Nat)
    (ord : InnerLayout) : soaMembers fields L ord = refMembers fields L := by
  induction fields with
  | nil => rfl
  | cons f fs ih =>
    simp only [soaMembers, refMembers, List.map_cons] at *
    rw [memberSize_eq, ih]

/-- C3: for every field list and inner length, under both orderings, the
SoA block type's byte size (computed by C struct-layout rules over its
members) equals that of the hand-written reference struct with one plain
array per field; for the test's field list at inner length 4 this equals
the size of the `FooData` struct of `tstSoA.cpp`, and the layout inserts
no padding: the size is exactly the sum over fields of
`L × product(shape) × sizeof(scalar)` (2064 bytes). -/
theorem soa_size_equivalence :
    (∀ (fields : List FieldDesc) (L : Nat) (ord : InnerLayout),
        structSize (soaMembers fields L ord) = structSize (refMembers fields L))
  ∧ (∀ ord : InnerLayout,
        structSize (soaMembers testFields 4 ord) = structSize fooDataMembers)
  ∧ (∀ ord : InnerLayout,
        structSize (soaMembers testFields 4 ord) = packedSize testFields 4) := by
  refine ⟨fun fields L ord => by rw [soaMembers_eq_refMembers],
    fun ord => ?_, fun ord => ?_⟩ <;> cases ord <;> decide


/-- A flattened in-bounds multi-index is below the extent product. -/
theorem flatten_lt {ds is : List Nat} (hlen : is.length = ds.length)
    (hb : ∀ pr ∈ is.zip ds, pr.1 < pr.2) :
    flatten ds is < prodDims ds := by
  induction ds generalizing is with
  | nil =>
    rcases List.length_eq_zero.1 hlen with rfl
    simp [flatten, prodDims]
  | cons d ds ih =>
    cases is with
    | nil => simp at hlen
    | cons i is =>
      simp only [List.length_cons, Nat.succ.injEq] at hlen
      have hid : i < d := hb (i, d) (by simp [List.zip_cons_cons])
      have htl : flatten ds is < prodDims ds := by
        apply ih hlen
        intro pr hpr
        exact hb pr (by simp [List.zip_cons_cons, hpr])
      calc flatten (d :: ds) (i :: is)
          = i * prodDims ds + flatten ds is := rfl
        _ < i * prodDims ds + prodDims ds := by omega
        _ = (i + 1) * prodDims ds := by ring
        _ ≤ d * prodDims ds := Nat.mul_le_mul_right _ hid
        _ = prodDims (d :: ds) := rfl

/-- Row-major flattening is injective on in-bounds multi-indices. -/
theorem flatten_inj {ds is is' : List Nat} (hlen : is.length = ds.length)
    (hb : ∀ pr ∈ is.zip ds, pr.1 < pr.2)
    (hlen' : is'.length = ds.length)
    (hb' : ∀ pr ∈ is'.zip ds, pr.1 < pr.2)
    (heq : flatten ds is = flatten ds is') : is = is' := by
  induction ds generalizing is is' with
  | nil =>
    rcases List.length_eq_zero.1 hlen with rfl
    rcases List.length_eq_zero.1 hlen' with rfl
    rfl
  | cons d ds ih =>
    cases is with
    | nil => simp at hlen
    | cons i is =>
      cases is' with
      | nil => simp at hlen'
      | cons i' is' =>
        simp only [List.length_cons, Nat.succ.injEq] at hlen hlen'
        have hbt : ∀ pr ∈ is.zip ds, pr.1 < pr.2 := fun pr hpr =>
          hb pr (by simp [List.zip_cons_cons, hpr])
        have hbt' : ∀ pr ∈ is'.zip ds, pr.1 < pr.2 := fun pr hpr =>
          hb' pr (by simp [List.zip_cons_cons, hpr])
        have h1 : flatten ds is < prodDims ds := flatten_lt hlen hbt
        have h2 : flatten ds is' < prodDims ds := flatten_lt hlen' hbt'
        have heq2 : i * prodDims ds + flatten ds is
            = i' * prodDims ds + flatten ds is' := heq
        have hhead : i = i' := by
          rcases Nat.lt_trichotomy i i' with h | h | h
          · exfalso
            have : i * prodDims ds + flatten ds is
                < i' * prodDims ds + flatten ds is' := by
              calc i * prodDims ds + flatten ds is
                  < (i + 1) * prodDims ds := by ring_nf; omega
                _ ≤ i' * prodDims ds := Nat.mul_le_mul_right _ h
                _ ≤ i' * prodDims ds + flatten ds is' := Nat.le_add_right _ _
            omega
          · exact h
          · exfalso
            have : i' * prodDims ds + flatten ds is'
                < i * prodDims ds + flatten ds is := by
              calc i' * prodDims ds + flatten ds is'
                  < (i' + 1) * prodDims ds := by ring_nf; omega
                _ ≤ i * prodDims ds := Nat.mul_le_mul_right _ h
                _ ≤ i * prodDims ds + flatten ds is := Nat.le_add_right _ _
            omega
        subst hhead
        have htail : flatten ds is = flatten ds is' := by omega
        rw [ih hlen hbt hlen' hbt' htail]


/-- A member's storage, starting at its offset, ends no later than any
later member's offset. -/
theorem memberOffset_add_size_le (L : Nat) (ord : InnerLayout)
    (fields : List FieldDesc) (m m' : Nat) (hm : m < fields.length)
    (hmm : m < m') :
    memberOffset L ord fields m + memberSize (fields.getD m default) L ord
      ≤ memberOffset L ord fields m' := by
  induction fields generalizing m m' with
  | nil => simp at hm
  | cons f fs ih =>
    cases m with
    | zero =>
      cases m' with
      | zero => omega
      | succ k' =>
        simp only [memberOffset, List.getD_cons_zero]
        omega
    | succ k =>
      cases m' with
      | zero => omega
      | succ k' =>
        simp only [memberOffset, List.getD_cons_succ]
        have := ih k k' (by simpa using hm) (by omega)
        omega

/-- The scalar size of the member named by a valid index is positive. -/
theorem scalarSize_pos_of_valid {fields : List FieldDesc} {L : Nat}
    {ord : InnerLayout} {m : Nat} {idxs : List Nat}
    (hpos : PosFields fields) (hv : ValidIdx fields L ord m idxs) :
    0 < (fields.getD m default).scalarSize := by
  apply hpos
  rw [List.getD_eq_getElem _ _ hv.1]
  exact List.getElem_mem hv.1

/-- A valid cell address stays strictly inside its member's storage. -/
theorem cellAddr_lt_end {fields : List FieldDesc} {L : Nat}
    {ord : InnerLayout} {m : Nat} {idxs : List Nat}
    (hpos : PosFields fields) (hv : ValidIdx fields L ord m idxs) :
    cellAddr fields L ord m idxs
      < memberOffset L ord fields m
          + memberSize (fields.getD m default) L ord := by
  have hs := scalarSize_pos_of_valid hpos hv
  have hf : flatten (memberDims (fields.getD m default) L ord) idxs
      < prodDims (memberDims (fields.getD m default) L ord) :=
    flatten_lt hv.2.1 hv.2.2
  have : (fields.getD m default).scalarSize
        * flatten (memberDims (fields.getD m default) L ord) idxs
      < (fields.getD m default).scalarSize
        * prodDims (memberDims (fields.getD m default) L ord) :=
    mul_lt_mul_of_pos_left hf hs
  simp only [cellAddr, memberSize] at *
  omega

/-- Distinct valid cells have distinct byte addresses: the accessors of
different members, or different indices of one member, never alias. -/
theorem cellAddr_inj {fields : List FieldDesc} {L : Nat} {ord : InnerLayout}
    {m m' : Nat} {idxs idxs' : List Nat} (hpos : PosFields fields)
    (hv : ValidIdx fields L ord m idxs) (hv' : ValidIdx fields L ord m' idxs')
    (heq : cellAddr fields L ord m idxs = cellAddr fields L ord m' idxs') :
    m = m' ∧ idxs = idxs' := by
  rcases Nat.lt_trichotomy m m' with h | h | h
  · exfalso
    have h1 := cellAddr_lt_end hpos hv
    have h2 := memberOffset_add_size_le L ord fields m m' hv.1 h
    have h3 : memberOffset L ord fields m' ≤ cellAddr fields L ord m' idxs' :=
      Nat.le_add_right _ _
    omega
  · subst h
    refine ⟨rfl, ?_⟩
    have hs := scalarSize_pos_of_valid hpos hv
    have hmul : (fields.getD m default).scalarSize
          * flatten (memberDims (fields.getD m default) L ord) idxs
        = (fields.getD m default).scalarSize
          * flatten (memberDims (fields.getD m default) L ord) idxs' := by
      simp only [cellAddr] at heq
      omega
    exact flatten_inj hv.2.1 hv.2.2 hv'.2.1 hv'.2.2
      (Nat.eq_of_mul_eq_mul_left hs hmul)
  · exfalso
    have h1 := cellAddr_lt_end hpos hv'
    have h2 := memberOffset_add_size_le L ord fields m' m hv'.1 h
    have h3 : memberOffset L ord fields m ≤ cellAddr fields L ord m idxs :=
      Nat.le_add_right _ _
    omega

/-- C4: writing a value through `member<m>` at a valid index tuple and
reading back through the same accessor returns the written value, and any
read through a different valid cell — another member or other indices —
is unaffected by the write, under both inner orderings. -/
theorem soa_accessor_roundtrip (fields : List FieldDesc) (L : Nat)
    (ord : InnerLayout) (b : Block) (v : Int) (m m' : Nat)
    (idxs idxs' : List Nat) (hpos : PosFields fields)
    (h : ValidIdx fields L ord m idxs) (h' : ValidIdx fields L ord m' idxs') :
    getCell fields L ord m idxs (setCell fields L ord m idxs v b) = v
  ∧ (¬ (m = m' ∧ idxs = idxs') →
      getCell fields L ord m' idxs' (setCell fields L ord m idxs v b)
        = b (cellAddr fields L ord m' idxs')) := by
  constructor
  · simp [getCell, setCell]
  · intro hne
    simp only [getCell, setCell]
    rw [if_neg]
    intro haddr
    have := cellAddr_inj hpos h' h haddr
    exact hne ⟨this.1.symm, this.2.symm⟩

/-- Witness for the C4 theorem on the test's own accesses:
`d6[2][1][1][1][1]` is written and read back while `d0[3]` stays at its
prior contents. -/
theorem soa_accessor_roundtrip_witness :
    getCell testFields 4 InnerLayout.right 6 [2, 1, 1, 1, 1]
        (setCell testFields 4 InnerLayout.right 6 [2, 1, 1, 1, 1] 7
          (fun _ => 0)) = 7
  ∧ (¬ ((6 : Nat) = 0 ∧ ([2, 1, 1, 1, 1] : List Nat) = [3]) →
      getCell testFields 4 InnerLayout.right 0 [3]
          (setCell testFields 4 InnerLayout.right 6 [2, 1, 1, 1, 1] 7
            (fun _ => 0))
        = (fun _ => (0 : Int)) (cellAddr testFields 4 InnerLayout.right 0 [3])) :=
  soa_accessor_roundtrip testFields 4 InnerLayout.right (fun _ => 0) 7 6 0
    [2, 1, 1, 1, 1] [3] (by decide) (by decide) (by decide)

end Cabana
